import Mathlib

/-!
Verification of the conflict-detection / slot-suggestion core of the
university event planner.

The Python source is embedded shallowly:

* strings are `List Char`; Python `str.split(sep)`, `in` (substring test),
  `str.strip()`, `str.capitalize()` and `list.index` are modelled by
  `pySplit`, `containsSeq`, `pyStrip`, `pyCapitalize` and `pyIndex`;
* timestamps are integers (minutes); calendar dates are integer day
  numbers with a Monday-aligned epoch, so that `d % 7` agrees with
  Python's `date.weekday()` (Monday = 0);
* the Google Calendar store is explicit data: an `ok` result carries the
  events of the two calendars (static = Recurring partition, temp =
  Transient partition), an `err` result stands for an `HttpError`.
-/

/-! ## Python string primitives -/

/-- Python whitespace as used by `str.strip()` (the characters relevant
to the descriptions handled by this program). -/
def isPySpace (c : Char) : Bool :=
  c == ' ' || c == '\t' || c == '\n' || c == '\r'

/-- Python `str.strip()`: drop whitespace from both ends. -/
def pyStrip (xs : List Char) : List Char :=
  ((xs.dropWhile isPySpace).reverse.dropWhile isPySpace).reverse

/-- Python substring test `sep in s`: some suffix of `s` starts with `sep`. -/
def containsSeq (sep : List Char) : List Char → Bool
  | [] => sep.isEmpty
  | c :: rest => sep.isPrefixOf (c :: rest) || containsSeq sep rest

/-- Python `str.split(sep)`, fuelled so that the recursion is structural;
the fuel only needs to dominate the length of the input and is fixed to
exactly that by the wrapper `pySplit`, so the `0` guard is unreachable. -/
def pySplitF (sep : List Char) : Nat → List Char → List (List Char)
  | _, [] => [[]]
  | 0, xs => [xs]
  | fuel + 1, c :: rest =>
    if !sep.isEmpty && sep.isPrefixOf (c :: rest) then
      [] :: pySplitF sep fuel (List.drop (sep.length - 1) rest)
    else
      match pySplitF sep fuel rest with
      | [] => [[c]]
      | h :: t => (c :: h) :: t

/-- Python `str.split(sep)` on `List Char`. -/
def pySplit (sep xs : List Char) : List (List Char) :=
  pySplitF sep xs.length xs

/-- Python `str.capitalize()`: first character upper-cased, rest lower-cased. -/
def pyCapitalize : List Char → List Char
  | [] => []
  | c :: rest => c.toUpper :: rest.map Char.toLower

/-- Python `list.index` returning `none` instead of raising `ValueError`. -/
def pyIndex (x : List Char) : List (List Char) → Option Nat
  | [] => none
  | y :: ys => if y == x then some 0 else (pyIndex x ys).map (· + 1)

/-- Helper predicate for reasoning about `pySplitF`: no occurrence of
`sep` starts within the first `u.length` positions of `u ++ v`. -/
def noOccWithin (sep : List Char) : List Char → List Char → Bool
  | [], _ => true
  | c :: u, v => !(sep.isPrefixOf (c :: (u ++ v))) && noOccWithin sep u v

/-! ## Audience-tag wire format (gemini_client.py / calendar_api.py) -/

/-- The separator string the conflict checker splits descriptions on. -/
def semKey : List Char := "Semester:".data

/-- Encoding side of the wire contract (`gemini_client.extract_timetable_data`,
line 131): `event["description"] = f"Semester: {sem} | Branch: {branch}"`. -/
def encodeDescription (sem branch : List Char) : List Char :=
  "Semester: ".data ++ sem ++ " | Branch: ".data ++ branch

/-- Decoding side, embedded from `check_conflicts` (calendar_api.py,
lines 145-156): default `"All"`, split on `"Semester:"`, take the piece
before the next `"|"`, strip; an out-of-range index also yields `"All"`. -/
def decode_semester (description : List Char) : List Char :=
  if containsSeq semKey description then
    match pySplit semKey description with
    | _ :: part_after :: _ =>
      if containsSeq ['|'] part_after then
        pyStrip ((pySplit ['|'] part_after).headD [])
      else
        pyStrip part_after
    | _ => "All".data
  else "All".data

/-! ## Store model and conflict checking (calendar_api.check_conflicts) -/

/-- A stored calendar event as seen by `check_conflicts`: summary,
description, and the optional concrete `dateTime` bounds (an all-day
event carries `none`). -/
structure GEvent where
  summary : String
  description : List Char
  startTime : Option Int
  endTime : Option Int
deriving DecidableEq, Repr

/-- The `target_semesters` argument: Python passes either a string or a
list of strings. -/
inductive Target where
  | str (s : List Char)
  | list (l : List (List Char))
deriving DecidableEq, Repr

/-- Python `target_semesters == "All"` (false for a list). -/
def targetEqAll : Target → Bool
  | .str s => s == "All".data
  | .list _ => false

/-- Python `"All" in target_semesters`: substring test for a string
filter, membership for a list filter. -/
def allInTarget : Target → Bool
  | .str s => containsSeq ("All".data) s
  | .list l => l.contains ("All".data)

/-- The `is_clash` computation of `check_conflicts` (calendar_api.py,
lines 158-167). -/
def is_clash (target : Target) (event_sem : List Char) : Bool :=
  if targetEqAll target || allInTarget target then true
  else
    match target with
    | .str s => s == event_sem
    | .list l => l.contains event_sem

/-- Result of the store round trip: the listed events of the static and
temp calendars, or a transport failure (`HttpError`). -/
inductive StoreResult where
  | ok (statics temps : List GEvent)
  | err (msg : String)
deriving DecidableEq, Repr

/-- Modelled from the spec: the store's time-ranged list query
(`events().list(timeMin=start, timeMax=end, singleEvents=True)`) returns
exactly the events whose window intersects the query window
(`reservation.start < query.end AND reservation.end > query.start`);
events without concrete `dateTime`s are returned and left for the caller
to filter. This part lives in the external store, not in `src/`. -/
def listRange (qStart qEnd : Int) (evs : List GEvent) : List GEvent :=
  evs.filter fun ev =>
    match ev.startTime, ev.endTime with
    | some s, some e => decide (s < qEnd) && decide (qStart < e)
    | _, _ => true

/-- A conflict report, carrying the same information as the formatted
strings built by `check_conflicts`: blocking event summary, decoded
audience tag (static calendar only), and its time range; `errorReport`
is the synthetic failure report. -/
inductive Report where
  | clashEvent (summary : String) (s e : Int)
  | clashClass (summary : String) (sem : List Char) (s e : Int)
  | errorReport (msg : String)
deriving DecidableEq, Repr

/-- Per-event body of the `check_conflicts` loop: all-day events are
skipped; temp-calendar events always produce a report; static-calendar
events produce a report iff `is_clash`. -/
def eventReport (isTemp : Bool) (target : Target) (ev : GEvent) : Option Report :=
  match ev.startTime, ev.endTime with
  | some s, some e =>
    if isTemp then some (.clashEvent ev.summary s e)
    else
      let event_sem := decode_semester ev.description
      if is_clash target event_sem then
        some (.clashClass ev.summary event_sem s e)
      else none
  | _, _ => none

/-- `CalendarAPI.check_conflicts` (calendar_api.py, lines 93-176):
iterates the static calendar then the temp calendar, collecting reports;
on a store failure it returns the single synthetic error report. -/
def check_conflicts : StoreResult → Int → Int → Target → List Report
  | .err msg, _, _, _ => [.errorReport msg]
  | .ok statics temps, qs, qe, target =>
    (listRange qs qe statics).filterMap (eventReport false target) ++
    (listRange qs qe temps).filterMap (eventReport true target)

/-! ## Slot suggester (calendar_api.get_suggestions)

Times are absolute minutes counted from midnight of the reference day
(day 0); a day has 1440 minutes, so minute `t` lies on day `t / 1440` at
minute-of-day `t % 1440`. `baseMin` is the minute-of-day of the
reference time (its day is day 0), `baseWd` its weekday (Monday = 0). -/

/-- Whether a candidate slot is conflict-free (`if not conflicts`). -/
def slotFree (res : StoreResult) (target : Target) (s e : Nat) : Bool :=
  (check_conflicts res (s : Int) (e : Int) target).isEmpty

/-- The inner 30-minute stepping loop of `get_suggestions`
(calendar_api.py, lines 212-229), fuelled so that the recursion is
structural; the wrapper `scanWindow` supplies fuel `endLimit + 1 - temp`,
which dominates the number of iterations, so the `0` guard is
unreachable. -/
def scanWindowF (res : StoreResult) (target : Target) (dur endLimit : Nat) :
    Nat → Nat → List (Nat × Nat) → List (Nat × Nat) × Bool
  | 0, _, acc => (acc, false)
  | fuel + 1, temp, acc =>
    if temp + dur ≤ endLimit then
      let acc' := if slotFree res target temp (temp + dur)
        then acc ++ [(temp, temp + dur)] else acc
      if 2 ≤ acc'.length then (acc', true)
      else scanWindowF res target dur endLimit fuel (temp + 30) acc'
    else (acc, false)

/-- The while loop `while temp_start + duration <= end_search_limit`,
returning the grown suggestion list and whether the early `return`
(2 suggestions collected) fired. -/
def scanWindow (res : StoreResult) (target : Target) (dur endLimit temp : Nat)
    (acc : List (Nat × Nat)) : List (Nat × Nat) × Bool :=
  scanWindowF res target dur endLimit (endLimit + 1 - temp) temp acc

/-- The two search windows `[(9, 15), (15, 16)]` of `get_suggestions`. -/
def searchWindows : List (Nat × Nat) := [(9, 15), (15, 16)]

/-- The `for start_hour, end_hour in search_windows` loop of
`get_suggestions` (calendar_api.py, lines 202-229) for day offset `d`:
the window start is clamped to the reference time on day 0. -/
def windowLoop (res : StoreResult) (target : Target) (dur baseMin d : Nat) :
    List (Nat × Nat) → List (Nat × Nat) → List (Nat × Nat) × Bool
  | [], acc => (acc, false)
  | (sh, eh) :: ws, acc =>
    let ss0 := d * 1440 + sh * 60
    let start_search := if d == 0 && decide (ss0 < baseMin) then baseMin else ss0
    match scanWindow res target dur (d * 1440 + eh * 60) start_search acc with
    | (acc', true) => (acc', true)
    | (acc', false) => windowLoop res target dur baseMin d ws acc'

/-- The weekday filter of `get_suggestions` (calendar_api.py, lines
192-195): skip the day iff `valid_weekdays` was supplied and the day's
weekday is not in it. -/
def skipDay (vw : Option (List Nat)) (wd : Nat) : Bool :=
  match vw with
  | some l => !(l.contains wd)
  | none => false

/-- The `for day_offset in range(8)` loop of `get_suggestions`
(calendar_api.py, lines 189-229), with the weekday filter. -/
def daysLoop (res : StoreResult) (target : Target) (dur baseMin baseWd : Nat)
    (vw : Option (List Nat)) : List Nat → List (Nat × Nat) → List (Nat × Nat)
  | [], acc => acc
  | d :: ds, acc =>
    if skipDay vw ((baseWd + d) % 7) then
      daysLoop res target dur baseMin baseWd vw ds acc
    else
      match windowLoop res target dur baseMin d searchWindows acc with
      | (acc', true) => acc'
      | (acc', false) => daysLoop res target dur baseMin baseWd vw ds acc'

/-- `CalendarAPI.get_suggestions` (calendar_api.py, lines 178-231):
suggested slots as (start, end) pairs in absolute minutes. -/
def get_suggestions (res : StoreResult) (target : Target)
    (baseMin dur baseWd : Nat) (vw : Option (List Nat)) : List (Nat × Nat) :=
  daysLoop res target dur baseMin baseWd vw (List.range 8) []

/-! ## Cancellation (agent.cancel_event) -/

/-- The fields of a temp-calendar event used by `cancel_event`:
creation time (seconds, UTC) and the stored creator email
(`create_event` stores `creator_email if creator_email else "system"`,
so the field is always present). -/
structure TempEvent where
  created : Int
  creator_email : String
deriving DecidableEq, Repr

/-- Outcome messages of `cancel_event`. -/
inductive CancelResult where
  | notFound
  | windowExpired
  | permissionDenied (creator : String)
  | cancelled
  | deleteFailed
deriving DecidableEq, Repr

/-- Python truthiness of the optional `requester_email` string
(`if requester_email and ...`): `None` and `""` are falsy. -/
def pyTruthyStr : Option String → Bool
  | none => false
  | some s => !(s == "")

/-- `SchedulingAgent.cancel_event` (agent.py, lines 131-176).  `now` and
the event's `created` are in seconds, so the 48-hour test
`(now - created) / 3600 > 48` is `now - created > 172800`.  `delOk` is
the success flag of the store delete call.  Returns the outcome and
whether the event was deleted. -/
def cancel_event (event : Option TempEvent) (now : Int)
    (requester_email : Option String) (admins : List String)
    (delOk : Bool) : CancelResult × Bool :=
  match event with
  | none => (.notFound, false)
  | some ev =>
    if 172800 < now - ev.created then (.windowExpired, false)
    else
      let is_admin := match requester_email with
        | some r => admins.contains r
        | none => false
      if pyTruthyStr requester_email && !is_admin then
        let creator := ev.creator_email
        if !(requester_email.getD "" == creator) && !(creator == "system") then
          (.permissionDenied creator, false)
        else if delOk then (.cancelled, true) else (.deleteFailed, false)
      else if delOk then (.cancelled, true) else (.deleteFailed, false)

/-! ## First occurrence (app.get_first_occurrence) -/

/-- The weekday-name table of `get_first_occurrence`, Monday first. -/
def daysOfWeek : List (List Char) :=
  ["Monday".data, "Tuesday".data, "Wednesday".data, "Thursday".data,
   "Friday".data, "Saturday".data, "Sunday".data]

/-- The `days.index(day_name.capitalize())` lookup, with the
`except ValueError: target_day = 0` fallback. -/
def targetDayIdx (day_name : List Char) : Nat :=
  (pyIndex (pyCapitalize day_name) daysOfWeek).getD 0

/-- `get_first_occurrence` (app.py, lines 110-120); dates are integer
day numbers with a Monday-aligned epoch, so `start_date % 7` is
Python's `start_date.weekday()`. -/
def get_first_occurrence (start_date : Int) (day_name : List Char) : Int :=
  let target_day : Int := (targetDayIdx day_name : Int)
  let current_day := start_date % 7
  let delta := target_day - current_day
  let delta' := if delta < 0 then delta + 7 else delta
  start_date + delta'

/-! ## Bulk delete (calendar_api.delete_events_by_semester) -/

/-- The two calendars as mutable store state. -/
structure StoreState where
  statics : List GEvent
  temps : List GEvent
deriving DecidableEq, Repr

/-- Modelled from the spec: the store's free-text `q` filter
(`events().list(q=query, ...)`) returns the events whose text fields
(summary, description) contain the query string; the code re-checks the
description itself before deleting.  The `q` matching lives in the
external store, not in `src/`. -/
def qMatchText (query : List Char) (ev : GEvent) : Bool :=
  containsSeq query ev.summary.data || containsSeq query ev.description

/-- The per-item deletion condition of `delete_events_by_semester`:
returned by the `q` query and `query in desc`. -/
def semDeleteMatch (tag : List Char) (ev : GEvent) : Bool :=
  qMatchText ("Semester: ".data ++ tag) ev &&
    containsSeq ("Semester: ".data ++ tag) ev.description

/-- `CalendarAPI.delete_events_by_semester` (calendar_api.py, lines
321-366): lists the static calendar with `q = f"Semester: {semester_tag}"`,
deletes every item whose description contains the query, and returns the
count; the temp calendar is never touched. -/
def delete_events_by_semester (st : StoreState) (tag : List Char) :
    Nat × StoreState :=
  ((st.statics.filter (semDeleteMatch tag)).length,
   ⟨st.statics.filter (fun ev => !(semDeleteMatch tag ev)), st.temps⟩)

/-! ## Spec-side helper definitions -/

/-- An event that carries concrete `dateTime` bounds (not all-day). -/
def hasTimes (ev : GEvent) : Bool := ev.startTime.isSome && ev.endTime.isSome

/-- Spec-side notion of the audience filter matching a decoded tag: a
single-tag filter matches by equality, a set filter by membership.  Used
to state the corrected relevance rule. -/
def filterMatchesTag (target : Target) (tag : List Char) : Bool :=
  match target with
  | .str s => s == tag
  | .list l => l.contains tag

/-! ## Theorems -/

theorem is_clash_eq (target : Target) (sem : List Char) :
    is_clash target sem =
      (targetEqAll target || allInTarget target || filterMatchesTag target sem) := by
  rcases target with s | l
  · by_cases h : (targetEqAll (.str s) || allInTarget (.str s)) = true
    · simp [is_clash, filterMatchesTag, h]
    · simp [is_clash, filterMatchesTag, h]
  · by_cases h : (targetEqAll (.list l) || allInTarget (.list l)) = true
    · simp [is_clash, filterMatchesTag, h]
    · simp [is_clash, filterMatchesTag, h]

/-- C3: on a store failure, `check_conflicts` returns exactly the single
synthetic error report and never the empty (success) list. -/
theorem check_conflicts_store_failure (msg : String) (qs qe : Int) (target : Target) :
    check_conflicts (.err msg) qs qe target = [.errorReport msg] ∧
    check_conflicts (.err msg) qs qe target ≠ [] := by
  exact ⟨rfl, by simp [check_conflicts]⟩

/-- C2: every temp-calendar (Transient) event with concrete times whose
window overlaps the query window is reported, for every audience filter. -/
theorem transient_always_reported (statics temps : List GEvent) (qs qe : Int)
    (target : Target) (ev : GEvent) (s e : Int)
    (hmem : ev ∈ temps) (hs : ev.startTime = some s) (he : ev.endTime = some e)
    (h1 : s < qe) (h2 : qs < e) :
    Report.clashEvent ev.summary s e ∈ check_conflicts (.ok statics temps) qs qe target := by
  unfold check_conflicts
  refine List.mem_append_right _ (List.mem_filterMap.mpr ⟨ev, ?_, ?_⟩)
  · exact List.mem_filter.mpr ⟨hmem, by simp [hs, he, h1, h2]⟩
  · simp [eventReport, hs, he]

theorem transient_always_reported_witness :
    Report.clashEvent "Club" 100 200 ∈
      check_conflicts (.ok [] [⟨"Club", "x".data, some 100, some 200⟩])
        150 250 (.str "Sem 5".data) :=
  transient_always_reported [] [⟨"Club", "x".data, some 100, some 200⟩] 150 250
    (.str "Sem 5".data) ⟨"Club", "x".data, some 100, some 200⟩ 100 200
    (by simp) rfl rfl (by decide) (by decide)

/-- C1 counterexample: a Recurring (static-calendar) reservation whose
decoded audience tag is `All`, overlapping the query window, is NOT
reported for a query filtered to the single tag `"Sem 3"` — refuting the
claimed "reservation tagged All conflicts with every filter" direction. -/
theorem recurring_all_tag_not_reported_cex :
    decode_semester ("Semester: All | Branch: CSE".data) = "All".data ∧
    (100 : Int) < 250 ∧ (150 : Int) < 200 ∧
    check_conflicts
      (.ok [⟨"Algo", "Semester: All | Branch: CSE".data, some 100, some 200⟩] [])
      150 250 (.str "Sem 3".data) = [] := by
  decide

/-- C1 amended: an overlapping Recurring reservation is reported iff the
query's filter is the string `"All"`, contains `"All"`, or matches the
reservation's decoded `audience_tag` (equality for a single-tag filter,
membership for a set filter); in particular a reservation whose decoded
tag is `All` is only reported when the filter itself is or contains
`All`, never for a specific single tag. -/
theorem recurring_clash_amended (ev : GEvent) (s e qs qe : Int) (target : Target)
    (hs : ev.startTime = some s) (he : ev.endTime = some e)
    (h1 : s < qe) (h2 : qs < e) :
    (check_conflicts (.ok [ev] []) qs qe target =
        [.clashClass ev.summary (decode_semester ev.description) s e]
      ↔ (targetEqAll target || allInTarget target ||
          filterMatchesTag target (decode_semester ev.description)) = true)
    ∧ ((targetEqAll target || allInTarget target ||
          filterMatchesTag target (decode_semester ev.description)) = false →
        check_conflicts (.ok [ev] []) qs qe target = []) := by
  have hcc : check_conflicts (.ok [ev] []) qs qe target =
      (if is_clash target (decode_semester ev.description) then
        [Report.clashClass ev.summary (decode_semester ev.description) s e]
      else []) := by
    simp [check_conflicts, listRange, eventReport, hs, he, h1, h2, List.filter,
      List.filterMap_cons]
    split <;> simp_all
  rw [hcc, is_clash_eq]
  constructor
  · cases h : (targetEqAll target || allInTarget target ||
        filterMatchesTag target (decode_semester ev.description)) <;> simp [h]
  · intro h; simp [h]

theorem recurring_clash_amended_witness :
    check_conflicts
      (.ok [⟨"Algo", "Semester: Sem 3 | Branch: CSE".data, some 100, some 200⟩] [])
      150 250 (.str "Sem 3".data) =
      [.clashClass "Algo"
        (decode_semester ("Semester: Sem 3 | Branch: CSE".data)) 100 200] :=
  (recurring_clash_amended
    ⟨"Algo", "Semester: Sem 3 | Branch: CSE".data, some 100, some 200⟩
    100 200 150 250 (.str "Sem 3".data) rfl rfl (by decide) (by decide)).1.mpr
    (by decide)

/-- C4: a Transient reservation with window `[a,b)` is reported against a
query window `[c,d)` exactly when `a < d` and `c < b` (so windows that
merely touch are never reported); and every report produced from an ok
store carries a blocking window satisfying that strict-overlap condition. -/
theorem overlap_iff_reported (summary : String) (desc : List Char)
    (a b c d : Int) (target : Target) (_hab : a < b) (_hcd : c < d) :
    ((Report.clashEvent summary a b ∈
        check_conflicts (.ok [] [⟨summary, desc, some a, some b⟩]) c d target)
      ↔ (a < d ∧ c < b))
    ∧ (∀ statics temps r, r ∈ check_conflicts (.ok statics temps) c d target →
        match r with
        | .clashEvent _ s e => s < d ∧ c < e
        | .clashClass _ _ s e => s < d ∧ c < e
        | .errorReport _ => True) := by
  constructor
  · by_cases h1 : a < d <;> by_cases h2 : c < b <;>
      simp [check_conflicts, listRange, List.filter, eventReport, h1, h2]
  · intro statics temps r hr
    rcases List.mem_append.mp hr with h | h <;>
    · obtain ⟨ev, hev, hrep⟩ := List.mem_filterMap.mp h
      obtain ⟨-, hpred⟩ := List.mem_filter.mp hev
      rcases hst : ev.startTime with _ | s <;> rcases hen : ev.endTime with _ | e <;>
        simp [eventReport, hst, hen] at hrep
      · simp [hst, hen] at hpred
        first
        | (obtain ⟨rfl⟩ := hrep; simpa using hpred)
        | (obtain ⟨-, rfl⟩ := hrep; simpa using hpred)
      
theorem overlap_iff_reported_witness :
    Report.clashEvent "E" 100 200 ∈
      check_conflicts (.ok [] [⟨"E", "x".data, some 100, some 200⟩])
        150 250 (.str "All".data) :=
  (overlap_iff_reported "E" "x".data 100 200 150 250 (.str "All".data)
    (by decide) (by decide)).1.mpr (by decide)

/-- C10: an event without concrete `dateTime`s (an all-day event) never
contributes to the conflict report: inserting one anywhere in either
partition leaves `check_conflicts` unchanged, so all-day entries never
block a booking. -/
theorem allday_never_blocks (s1 s2 t1 t2 : List GEvent) (qs qe : Int)
    (target : Target) (ev : GEvent)
    (hmiss : ev.startTime = none ∨ ev.endTime = none) :
    check_conflicts (.ok (s1 ++ ev :: s2) (t1 ++ ev :: t2)) qs qe target =
      check_conflicts (.ok (s1 ++ s2) (t1 ++ t2)) qs qe target := by
  have hrep : ∀ b, eventReport b target ev = none := by
    intro b
    rcases hst : ev.startTime with _ | s <;> rcases hen : ev.endTime with _ | e <;>
      simp [eventReport, hst, hen] <;> simp [hst, hen] at hmiss
  have hkeep : ∀ l1 l2 : List GEvent, listRange qs qe (l1 ++ ev :: l2) =
      listRange qs qe l1 ++ ev :: listRange qs qe l2 := by
    intro l1 l2
    rcases hst : ev.startTime with _ | s <;> rcases hen : ev.endTime with _ | e <;>
      simp [listRange, List.filter_append, List.filter_cons, hst, hen] <;>
      simp [hst, hen] at hmiss
  have hkeep2 : ∀ l1 l2 : List GEvent, listRange qs qe (l1 ++ l2) =
      listRange qs qe l1 ++ listRange qs qe l2 := by
    intro l1 l2; simp [listRange, List.filter_append]
  simp [check_conflicts, hkeep, hkeep2, List.filterMap_append,
    List.filterMap_cons, hrep]

theorem filter_not_filter {α : Type} (p : α → Bool) (l : List α) :
    (l.filter fun a => !(p a)).filter p = [] := by
  induction l with
  | nil => rfl
  | cons a l ih => by_cases h : p a = true <;> simp [List.filter_cons, h, ih]

theorem filter_not_idem {α : Type} (p : α → Bool) (l : List α) :
    (l.filter fun a => !(p a)).filter (fun a => !(p a)) =
      l.filter fun a => !(p a) := by
  induction l with
  | nil => rfl
  | cons a l ih => by_cases h : p a = true <;> simp [List.filter_cons, h, ih]

/-- C9: `delete_events_by_semester` never touches the temp (Transient)
partition, and it is idempotent: an immediate second call with the same
tag deletes nothing (count 0) and leaves the store unchanged. -/
theorem delete_by_semester_frame_idempotent (st : StoreState) (tag : List Char) :
    (delete_events_by_semester st tag).2.temps = st.temps ∧
    (delete_events_by_semester (delete_events_by_semester st tag).2 tag).1 = 0 ∧
    (delete_events_by_semester (delete_events_by_semester st tag).2 tag).2 =
      (delete_events_by_semester st tag).2 := by
  refine ⟨rfl, ?_, ?_⟩
  · simp [delete_events_by_semester, filter_not_filter]
  · simp [delete_events_by_semester, filter_not_idem]

theorem allday_never_blocks_witness :
    check_conflicts
      (.ok ([] ++ (⟨"AllDay", "d".data, none, none⟩ : GEvent) :: [])
           ([] ++ (⟨"AllDay", "d".data, none, none⟩ : GEvent) :: []))
      0 100 (.str "All".data) =
    check_conflicts (.ok ([] ++ []) ([] ++ [])) 0 100 (.str "All".data) :=
  allday_never_blocks [] [] [] [] 0 100 (.str "All".data)
    ⟨"AllDay", "d".data, none, none⟩ (Or.inl rfl)

theorem pyIndex_lt_length (x : List Char) (l : List (List Char)) :
    ∀ i, pyIndex x l = some i → i < l.length := by
  induction l with
  | nil => intro i h; simp [pyIndex] at h
  | cons y ys ih =>
    intro i h
    by_cases hy : (y == x) = true
    · simp [pyIndex, hy] at h
      simp
      omega
    · simp [pyIndex, hy] at h
      obtain ⟨j, hj, rfl⟩ := h
      have := ih j hj
      simp
      omega

theorem targetDayIdx_lt (name : List Char) : targetDayIdx name < 7 := by
  unfold targetDayIdx
  rcases h : pyIndex (pyCapitalize name) daysOfWeek with _ | i
  · simp
  · have := pyIndex_lt_length _ _ i h
    simp [daysOfWeek] at this
    simpa using this

/-- C8: `get_first_occurrence` returns the start date itself when it
already falls on the requested weekday, otherwise the next forward date
with that weekday within 6 days; the result is never before the start
date, always falls on the requested weekday, and the function is
idempotent under re-application with the same weekday name. -/
theorem get_first_occurrence_spec (start : Int) (name : List Char) :
    (start % 7 = (targetDayIdx name : Int) →
      get_first_occurrence start name = start)
    ∧ start ≤ get_first_occurrence start name
    ∧ get_first_occurrence start name ≤ start + 6
    ∧ get_first_occurrence start name % 7 = (targetDayIdx name : Int)
    ∧ get_first_occurrence (get_first_occurrence start name) name =
        get_first_occurrence start name := by
  have ht : targetDayIdx name < 7 := targetDayIdx_lt name
  simp only [get_first_occurrence]
  split_ifs <;> refine ⟨?_, ?_, ?_, ?_, ?_⟩ <;> omega

theorem get_first_occurrence_spec_witness :
    get_first_occurrence 0 ("Monday".data) = 0 :=
  (get_first_occurrence_spec 0 ("Monday".data)).1 (by decide)

/-- C6 counterexample: within the 48-hour window, a requester who is
neither the recorded creator nor an admin succeeds in cancelling when
the event's recorded creator is the sentinel `"system"` — refuting the
claim that every such requester is refused with a permission-denied
message and the event left intact. -/
theorem cancel_event_system_creator_cex :
    cancel_event (some ⟨0, "system"⟩) 0 (some "alice") [] true =
      (.cancelled, true) ∧
    "alice" ≠ "system" ∧ ("alice" ∈ ([] : List String) → False) := by
  decide

/-- C6 amended: the event is deleted only if the request is within the
48-hour window and the requester is the creator or an admin, except that
a missing/empty requester identity or a recorded creator equal to the
sentinel `"system"` also allows deletion; every supplied non-empty
requester that is neither creator nor admin is refused with a
permission-denied outcome naming the recorded creator (no deletion)
whenever the recorded creator is not `"system"`. -/
theorem cancel_event_amended (event : Option TempEvent) (now : Int)
    (requester : Option String) (admins : List String) (delOk : Bool) :
    ((cancel_event event now requester admins delOk).2 = true →
      ∃ ev, event = some ev ∧ now - ev.created ≤ 172800 ∧
        ∀ r, requester = some r → r ≠ "" → admins.contains r = false →
          ev.creator_email ≠ "system" → r = ev.creator_email)
    ∧ (∀ ev r, event = some ev → requester = some r → r ≠ "" →
        admins.contains r = false → ev.creator_email ≠ "system" →
        r ≠ ev.creator_email → now - ev.created ≤ 172800 →
        cancel_event event now requester admins delOk =
          (.permissionDenied ev.creator_email, false)) := by
  constructor
  · rcases event with _ | ev
    · intro h; simp [cancel_event] at h
    · intro h
      refine ⟨ev, rfl, ?_, ?_⟩
      · by_contra hw
        simp [cancel_event, if_pos (by omega : 172800 < now - ev.created)] at h
      · intro r hr hre hadm hcse
        by_cases hw : 172800 < now - ev.created
        · simp [cancel_event, if_pos hw] at h
        · subst hr
          simp only [cancel_event, if_neg hw] at h
          by_cases hrc : r = ev.creator_email
          · exact hrc
          · exfalso
            have h1 : pyTruthyStr (some r) = true := by
              simp [pyTruthyStr, hre]
            have hadm' : r ∉ admins := by simpa using hadm
            simp [h1, hadm, hadm', Option.getD,
              (by simp [hrc] : (r == ev.creator_email) = false),
              (by simp [hcse] : (ev.creator_email == "system") = false)] at h
  · intro ev r hev hr hre hadm hcse hrc hw
    subst hev; subst hr
    have hadm' : r ∉ admins := by simpa using hadm
    simp [cancel_event, if_neg (by omega : ¬ 172800 < now - ev.created),
      pyTruthyStr, hre, hadm, hadm', Option.getD,
      (by simp [hrc] : (r == ev.creator_email) = false),
      (by simp [hcse] : (ev.creator_email == "system") = false)]

theorem cancel_event_amended_witness :
    cancel_event (some ⟨0, "bob"⟩) 0 (some "alice") [] true =
      (.permissionDenied "bob", false) :=
  (cancel_event_amended (some ⟨0, "bob"⟩) 0 (some "alice") [] true).2
    ⟨0, "bob"⟩ "alice" rfl rfl (by decide) (by decide) (by decide) (by decide)
    (by decide)

theorem scanWindowF_mem (res : StoreResult) (target : Target) (dur endLimit : Nat) :
    ∀ (fuel temp : Nat) (acc : List (Nat × Nat)) (p : Nat × Nat),
      p ∈ (scanWindowF res target dur endLimit fuel temp acc).1 →
      p ∈ acc ∨ (temp ≤ p.1 ∧ p.2 = p.1 + dur ∧ p.2 ≤ endLimit) := by
  intro fuel
  induction fuel with
  | zero =>
    intro temp acc p h
    simp only [scanWindowF] at h
    exact Or.inl h
  | succ fuel ih =>
    intro temp acc p h
    simp only [scanWindowF] at h
    by_cases hc : temp + dur ≤ endLimit
    · rw [if_pos hc] at h
      set acc2 := if slotFree res target temp (temp + dur)
        then acc ++ [(temp, temp + dur)] else acc with hacc2
      have hmem2 : ∀ q : Nat × Nat, q ∈ acc2 →
          q ∈ acc ∨ (temp ≤ q.1 ∧ q.2 = q.1 + dur ∧ q.2 ≤ endLimit) := by
        intro q hq
        rw [hacc2] at hq
        by_cases hf : slotFree res target temp (temp + dur) = true
        · rw [if_pos hf] at hq
          rcases List.mem_append.mp hq with h1 | h1
          · exact Or.inl h1
          · rcases List.mem_singleton.mp h1 with rfl
            exact Or.inr ⟨Nat.le_refl _, rfl, hc⟩
        · rw [if_neg hf] at hq
          exact Or.inl hq
      by_cases hl : 2 ≤ acc2.length
      · rw [if_pos hl] at h
        exact hmem2 p h
      · rw [if_neg hl] at h
        rcases ih (temp + 30) acc2 p h with hin | ⟨h1, h2, h3⟩
        · exact hmem2 p hin
        · exact Or.inr ⟨by omega, h2, h3⟩
    · rw [if_neg hc] at h
      exact Or.inl h

theorem scanWindowF_len (res : StoreResult) (target : Target) (dur endLimit : Nat) :
    ∀ (fuel temp : Nat) (acc : List (Nat × Nat)), acc.length ≤ 1 →
      (scanWindowF res target dur endLimit fuel temp acc).1.length ≤ 2 ∧
      ((scanWindowF res target dur endLimit fuel temp acc).2 = false →
        (scanWindowF res target dur endLimit fuel temp acc).1.length ≤ 1) := by
  intro fuel
  induction fuel with
  | zero =>
    intro temp acc hacc
    simp only [scanWindowF]
    exact ⟨by omega, fun _ => hacc⟩
  | succ fuel ih =>
    intro temp acc hacc
    simp only [scanWindowF]
    by_cases hc : temp + dur ≤ endLimit
    · rw [if_pos hc]
      set acc2 := if slotFree res target temp (temp + dur)
        then acc ++ [(temp, temp + dur)] else acc with hacc2
      have h2 : acc2.length ≤ acc.length + 1 := by
        rw [hacc2]; split <;> simp
      by_cases hl : 2 ≤ acc2.length
      · rw [if_pos hl]
        exact ⟨by dsimp only; omega, by intro hfalse; simp at hfalse⟩
      · rw [if_neg hl]
        exact ih (temp + 30) acc2 (by omega)
    · rw [if_neg hc]
      exact ⟨by dsimp only; omega, fun _ => hacc⟩

theorem scanWindow_mem (res : StoreResult) (target : Target)
    (dur endLimit temp : Nat) (acc : List (Nat × Nat)) (p : Nat × Nat)
    (h : p ∈ (scanWindow res target dur endLimit temp acc).1) :
    p ∈ acc ∨ (temp ≤ p.1 ∧ p.2 = p.1 + dur ∧ p.2 ≤ endLimit) :=
  scanWindowF_mem res target dur endLimit (endLimit + 1 - temp) temp acc p h

theorem scanWindow_len (res : StoreResult) (target : Target)
    (dur endLimit temp : Nat) (acc : List (Nat × Nat)) (hacc : acc.length ≤ 1) :
    (scanWindow res target dur endLimit temp acc).1.length ≤ 2 ∧
    ((scanWindow res target dur endLimit temp acc).2 = false →
      (scanWindow res target dur endLimit temp acc).1.length ≤ 1) :=
  scanWindowF_len res target dur endLimit (endLimit + 1 - temp) temp acc hacc

theorem windowLoop_mem (res : StoreResult) (target : Target)
    (dur baseMin d : Nat) :
    ∀ (ws : List (Nat × Nat)) (acc : List (Nat × Nat)) (p : Nat × Nat),
      (∀ w ∈ ws, 9 ≤ w.1 ∧ w.2 ≤ 16) →
      p ∈ (windowLoop res target dur baseMin d ws acc).1 →
      p ∈ acc ∨ (d * 1440 + 540 ≤ p.1 ∧ p.2 = p.1 + dur ∧
        p.2 ≤ d * 1440 + 960 ∧ (d = 0 → baseMin ≤ p.1)) := by
  intro ws
  induction ws with
  | nil =>
    intro acc p _ h
    simp only [windowLoop] at h
    exact Or.inl h
  | cons w ws ih =>
    obtain ⟨sh, eh⟩ := w
    intro acc p hws h
    obtain ⟨hsh, heh⟩ := hws (sh, eh) (List.mem_cons_self _ _)
    simp only [windowLoop] at h
    rcases hscan : scanWindow res target dur (d * 1440 + eh * 60)
      (if d == 0 && decide (d * 1440 + sh * 60 < baseMin) then baseMin
        else d * 1440 + sh * 60) acc with ⟨acc2, done⟩
    rw [hscan] at h
    have hss : d * 1440 + 540 ≤
        (if d == 0 && decide (d * 1440 + sh * 60 < baseMin) then baseMin
          else d * 1440 + sh * 60) ∧
        (d = 0 → baseMin ≤
          (if d == 0 && decide (d * 1440 + sh * 60 < baseMin) then baseMin
            else d * 1440 + sh * 60)) := by
      split
      · next hcond =>
        simp only [Bool.and_eq_true, beq_iff_eq, decide_eq_true_eq] at hcond
        obtain ⟨hd0, hlt⟩ := hcond
        subst hd0
        exact ⟨by omega, fun _ => Nat.le_refl _⟩
      · next hcond =>
        simp only [Bool.and_eq_true, beq_iff_eq, decide_eq_true_eq, not_and] at hcond
        refine ⟨by omega, fun hd0 => ?_⟩
        have := hcond hd0
        omega
    have key : ∀ q : Nat × Nat, q ∈ acc2 →
        q ∈ acc ∨ (d * 1440 + 540 ≤ q.1 ∧ q.2 = q.1 + dur ∧
          q.2 ≤ d * 1440 + 960 ∧ (d = 0 → baseMin ≤ q.1)) := by
      intro q hq
      have hq' : q ∈ (scanWindow res target dur (d * 1440 + eh * 60)
          (if d == 0 && decide (d * 1440 + sh * 60 < baseMin) then baseMin
            else d * 1440 + sh * 60) acc).1 := by rw [hscan]; exact hq
      rcases scanWindow_mem _ _ _ _ _ _ _ hq' with h1 | ⟨h1, h2, h3⟩
      · exact Or.inl h1
      · refine Or.inr ⟨by omega, h2, by omega, fun hd0 => ?_⟩
        have := hss.2 hd0
        omega
    cases done with
    | true => exact key p h
    | false =>
      rcases ih acc2 p (fun w hw => hws w (List.mem_cons_of_mem _ hw)) h with
        hin | hbig
      · exact key p hin
      · exact Or.inr hbig

theorem windowLoop_len (res : StoreResult) (target : Target)
    (dur baseMin d : Nat) :
    ∀ (ws : List (Nat × Nat)) (acc : List (Nat × Nat)), acc.length ≤ 1 →
      (windowLoop res target dur baseMin d ws acc).1.length ≤ 2 ∧
      ((windowLoop res target dur baseMin d ws acc).2 = false →
        (windowLoop res target dur baseMin d ws acc).1.length ≤ 1) := by
  intro ws
  induction ws with
  | nil =>
    intro acc hacc
    simp only [windowLoop]
    exact ⟨by omega, fun _ => hacc⟩
  | cons w ws ih =>
    obtain ⟨sh, eh⟩ := w
    intro acc hacc
    simp only [windowLoop]
    rcases hscan : scanWindow res target dur (d * 1440 + eh * 60)
      (if d == 0 && decide (d * 1440 + sh * 60 < baseMin) then baseMin
        else d * 1440 + sh * 60) acc with ⟨acc2, done⟩
    have hlen := scanWindow_len res target dur (d * 1440 + eh * 60)
      (if d == 0 && decide (d * 1440 + sh * 60 < baseMin) then baseMin
        else d * 1440 + sh * 60) acc hacc
    rw [hscan] at hlen
    cases done with
    | true => exact ⟨by dsimp only; exact hlen.1, by intro hfalse; simp at hfalse⟩
    | false => exact ih acc2 (hlen.2 rfl)

theorem daysLoop_mem (res : StoreResult) (target : Target)
    (dur baseMin baseWd : Nat) (vw : Option (List Nat)) :
    ∀ (ds : List Nat) (acc : List (Nat × Nat)) (p : Nat × Nat),
      p ∈ daysLoop res target dur baseMin baseWd vw ds acc →
      p ∈ acc ∨ ∃ d ∈ ds, d * 1440 + 540 ≤ p.1 ∧ p.2 = p.1 + dur ∧
        p.2 ≤ d * 1440 + 960 ∧ (d = 0 → baseMin ≤ p.1) := by
  intro ds
  induction ds with
  | nil =>
    intro acc p h
    simp only [daysLoop] at h
    exact Or.inl h
  | cons d ds ih =>
    intro acc p h
    simp only [daysLoop] at h
    have hwin : ∀ w ∈ searchWindows, 9 ≤ w.1 ∧ w.2 ≤ 16 := by decide
    by_cases hskip : skipDay vw ((baseWd + d) % 7) = true
    · rw [if_pos hskip] at h
      rcases ih acc p h with hin | ⟨d', hd', hbig⟩
      · exact Or.inl hin
      · exact Or.inr ⟨d', List.mem_cons_of_mem _ hd', hbig⟩
    · rw [if_neg hskip] at h
      rcases hwl : windowLoop res target dur baseMin d searchWindows acc with
        ⟨acc2, done⟩
      rw [hwl] at h
      have key : ∀ q : Nat × Nat, q ∈ acc2 →
          q ∈ acc ∨ ∃ d' ∈ d :: ds, d' * 1440 + 540 ≤ q.1 ∧ q.2 = q.1 + dur ∧
            q.2 ≤ d' * 1440 + 960 ∧ (d' = 0 → baseMin ≤ q.1) := by
        intro q hq
        have hq' : q ∈ (windowLoop res target dur baseMin d searchWindows acc).1 := by
          rw [hwl]; exact hq
        rcases windowLoop_mem res target dur baseMin d searchWindows acc q hwin hq'
          with h1 | hbig
        · exact Or.inl h1
        · exact Or.inr ⟨d, List.mem_cons_self _ _, hbig⟩
      cases done with
      | true => exact key p h
      | false =>
        rcases ih acc2 p h with hin | ⟨d', hd', hbig⟩
        · exact key p hin
        · exact Or.inr ⟨d', List.mem_cons_of_mem _ hd', hbig⟩

theorem daysLoop_len (res : StoreResult) (target : Target)
    (dur baseMin baseWd : Nat) (vw : Option (List Nat)) :
    ∀ (ds : List Nat) (acc : List (Nat × Nat)), acc.length ≤ 1 →
      (daysLoop res target dur baseMin baseWd vw ds acc).length ≤ 2 := by
  intro ds
  induction ds with
  | nil =>
    intro acc hacc
    simp only [daysLoop]
    omega
  | cons d ds ih =>
    intro acc hacc
    simp only [daysLoop]
    by_cases hskip : skipDay vw ((baseWd + d) % 7) = true
    · rw [if_pos hskip]
      exact ih acc hacc
    · rw [if_neg hskip]
      rcases hwl : windowLoop res target dur baseMin d searchWindows acc with
        ⟨acc2, done⟩
      have hlen := windowLoop_len res target dur baseMin d searchWindows acc hacc
      rw [hwl] at hlen
      cases done with
      | true => exact hlen.1
      | false => exact ih acc2 (hlen.2 rfl)

/-- C5: every suggested slot lies within the 09:00-16:00 operating window
of some day offset `d ≤ 7` (start no earlier than 09:00, end no later
than 16:00, in absolute minutes `d * 1440 + minute-of-day`), the result
never contains more than 2 slots, and a slot on the reference day
(`d = 0`) never starts before the reference time `baseMin`. -/
theorem get_suggestions_spec (res : StoreResult) (target : Target)
    (baseMin dur baseWd : Nat) (vw : Option (List Nat)) :
    (get_suggestions res target baseMin dur baseWd vw).length ≤ 2 ∧
    ∀ p ∈ get_suggestions res target baseMin dur baseWd vw,
      ∃ d, d ≤ 7 ∧ d * 1440 + 540 ≤ p.1 ∧ p.2 = p.1 + dur ∧
        p.2 ≤ d * 1440 + 960 ∧ (d = 0 → baseMin ≤ p.1) := by
  constructor
  · exact daysLoop_len res target dur baseMin baseWd vw (List.range 8) []
      (by simp)
  · intro p hp
    rcases daysLoop_mem res target dur baseMin baseWd vw (List.range 8) [] p hp
      with hin | ⟨d, hd, h1, h2, h3, h4⟩
    · simp at hin
    · exact ⟨d, by have := List.mem_range.mp hd; omega, h1, h2, h3, h4⟩

theorem get_suggestions_spec_witness :
    (get_suggestions (.ok [] []) (.str "All".data) 600 60 0 none).length ≤ 2 ∧
    (∃ d, d ≤ 7 ∧ d * 1440 + 540 ≤ 600 ∧ 660 = 600 + 60 ∧
      660 ≤ d * 1440 + 960 ∧ (d = 0 → 600 ≤ 600)) :=
  ⟨(get_suggestions_spec (.ok [] []) (.str "All".data) 600 60 0 none).1,
   (get_suggestions_spec (.ok [] []) (.str "All".data) 600 60 0 none).2
     (600, 660) (by decide)⟩

theorem isPrefixOf_append_self : ∀ (l r : List Char), l.isPrefixOf (l ++ r) = true := by
  intro l r
  induction l with
  | nil => simp [List.isPrefixOf]
  | cons c l ih => simp [List.isPrefixOf, ih]

theorem containsSeq_of_prefix (sep xs : List Char) (h : sep.isPrefixOf xs = true) :
    containsSeq sep xs = true := by
  cases xs with
  | nil =>
    cases sep with
    | nil => rfl
    | cons c s => simp [List.isPrefixOf] at h
  | cons c rest => simp [containsSeq, h]

theorem pySplitF_ne_nil (sep : List Char) :
    ∀ (fuel : Nat) (xs : List Char), pySplitF sep fuel xs ≠ [] := by
  intro fuel xs
  match fuel, xs with
  | fuel, [] => simp [pySplitF]
  | 0, c :: rest => simp [pySplitF]
  | fuel + 1, c :: rest =>
    simp only [pySplitF]
    split
    · simp
    · split <;> simp

theorem pySplitF_prefix_step (sep r : List Char) (hne : sep ≠ []) (f : Nat) :
    pySplitF sep (f + 1) (sep ++ r) = [] :: pySplitF sep f r := by
  cases sep with
  | nil => exact absurd rfl hne
  | cons c0 st =>
    show pySplitF (c0 :: st) (f + 1) (c0 :: (st ++ r)) = _
    have hcond : (!(c0 :: st).isEmpty &&
        List.isPrefixOf (c0 :: st) (c0 :: (st ++ r))) = true := by
      simp [List.isPrefixOf, isPrefixOf_append_self]
    have hdrop : List.drop ((c0 :: st).length - 1) (st ++ r) = r := by
      simp [List.drop_left]
    simp only [pySplitF, hcond, if_true, hdrop]

theorem noOccWithin_append (sep : List Char) :
    ∀ (u1 u2 v : List Char),
      noOccWithin sep (u1 ++ u2) v =
        (noOccWithin sep u1 (u2 ++ v) && noOccWithin sep u2 v) := by
  intro u1
  induction u1 with
  | nil => intro u2 v; simp [noOccWithin]
  | cons c u1 ih =>
    intro u2 v
    simp [noOccWithin, ih, List.append_assoc, Bool.and_assoc]

theorem noOccWithin_singleton (c0 : Char) :
    ∀ (u v : List Char),
      noOccWithin [c0] u v = u.all (fun c => !(c0 == c)) := by
  intro u
  induction u with
  | nil => intro v; rfl
  | cons c u ih => intro v; simp [noOccWithin, List.isPrefixOf, ih]

theorem pySplitF_no_occ (sep : List Char) :
    ∀ (u : List Char) (fuel : Nat) (v : List Char),
      noOccWithin sep u v = true →
      pySplitF sep (u.length + fuel) (u ++ v) =
        (u ++ (pySplitF sep fuel v).headD []) :: (pySplitF sep fuel v).tail := by
  intro u
  induction u with
  | nil =>
    intro fuel v _
    simp only [List.length_nil, Nat.zero_add, List.nil_append]
    rcases hv : pySplitF sep fuel v with _ | ⟨h, t⟩
    · exact absurd hv (pySplitF_ne_nil sep fuel v)
    · simp
  | cons c u ih =>
    intro fuel v hno
    simp only [noOccWithin, Bool.and_eq_true] at hno
    obtain ⟨hpre, hno'⟩ := hno
    have hlen : (c :: u).length + fuel = (u.length + fuel) + 1 := by
      simp only [List.length_cons]; omega
    rw [hlen]
    show pySplitF sep ((u.length + fuel) + 1) (c :: (u ++ v)) = _
    have hprefix : List.isPrefixOf sep (c :: (u ++ v)) = false := by
      simpa using hpre
    simp only [pySplitF, hprefix, Bool.and_false, Bool.false_eq_true, if_false]
    rw [ih fuel v hno']
    simp

theorem pySplitF_pipe_cons (w : List Char) :
    pySplitF ['|'] (w.length + 1) ('|' :: w) = [] :: pySplitF ['|'] w.length w := by
  have h := pySplitF_prefix_step ['|'] w (by simp) w.length
  rwa [List.cons_append, List.nil_append] at h

theorem containsSeq_singleton_iff (c : Char) :
    ∀ (xs : List Char), containsSeq [c] xs = true ↔ c ∈ xs := by
  intro xs
  induction xs with
  | nil => simp [containsSeq]
  | cons d rest ih =>
    simp only [containsSeq, List.isPrefixOf, Bool.or_eq_true, Bool.and_eq_true,
      beq_iff_eq, ih, List.mem_cons]
    constructor
    · rintro (⟨rfl, -⟩ | h)
      · exact Or.inl rfl
      · exact Or.inr h
    · rintro (rfl | h)
      · exact Or.inl ⟨rfl, by simp [List.isPrefixOf]⟩
      · exact Or.inr h

theorem isDigit_ne_S (c : Char) (hc : c.isDigit = true) : ('S' == c) = false := by
  by_contra h
  rw [Bool.not_eq_false] at h
  have hce : 'S' = c := beq_iff_eq.mp h
  rw [← hce] at hc
  exact absurd hc (by decide)

theorem isDigit_ne_pipe (c : Char) (hc : c.isDigit = true) : ('|' == c) = false := by
  by_contra h
  rw [Bool.not_eq_false] at h
  have hce : '|' = c := beq_iff_eq.mp h
  rw [← hce] at hc
  exact absurd hc (by decide)

theorem isDigit_not_space (c : Char) (hc : c.isDigit = true) :
    isPySpace c = false := by
  by_contra h
  rw [Bool.not_eq_false] at h
  simp only [isPySpace, Bool.or_eq_true, beq_iff_eq] at h
  rcases h with ((rfl | rfl) | rfl) | rfl <;> exact absurd hc (by decide)

theorem pyStrip_pad (t : List Char) (c d : Char) (t0 t1 : List Char)
    (hc : t = c :: t0) (hcs : isPySpace c = false)
    (hd : t.reverse = d :: t1) (hds : isPySpace d = false) :
    pyStrip (' ' :: (t ++ [' '])) = t := by
  unfold pyStrip
  have h1 : List.dropWhile isPySpace (' ' :: (t ++ [' '])) = t ++ [' '] := by
    rw [List.dropWhile_cons]
    rw [if_pos (by decide)]
    rw [hc, List.cons_append, List.dropWhile_cons, if_neg (by simp [hcs])]
  rw [h1]
  have h2 : (t ++ [' ']).reverse = ' ' :: t.reverse := by simp
  rw [h2, List.dropWhile_cons, if_pos (by decide), hd,
    List.dropWhile_cons, if_neg (by simp [hds]), ← hd, List.reverse_reverse]

theorem noOcc_semKey_sem_front (w : List Char) :
    noOccWithin semKey ([' ', 'S', 'e', 'm', ' ']) w = true := by
  have hsk : semKey = ['S', 'e', 'm', 'e', 's', 't', 'e', 'r', ':'] := rfl
  rw [hsk]
  simp +decide [noOccWithin, List.isPrefixOf]

theorem noOcc_semKey_branch_tail (w : List Char) :
    noOccWithin semKey (" | Branch: ".data) w = true := by
  have hsk : semKey = ['S', 'e', 'm', 'e', 's', 't', 'e', 'r', ':'] := rfl
  show noOccWithin semKey
    ([' ', '|', ' ', 'B', 'r', 'a', 'n', 'c', 'h', ':', ' ']) w = true
  rw [hsk]
  simp +decide [noOccWithin, List.isPrefixOf]

theorem noOcc_semKey_all_front (w : List Char) :
    noOccWithin semKey (" All | Branch: ".data) w = true := by
  have hsk : semKey = ['S', 'e', 'm', 'e', 's', 't', 'e', 'r', ':'] := rfl
  show noOccWithin semKey
    ([' ', 'A', 'l', 'l', ' ', '|', ' ', 'B', 'r', 'a', 'n', 'c', 'h', ':', ' '])
    w = true
  rw [hsk]
  simp +decide [noOccWithin, List.isPrefixOf]

theorem noOcc_semKey_digits : ∀ (ds : List Char),
    (∀ c ∈ ds, c.isDigit = true) →
    ∀ w, noOccWithin semKey ds w = true := by
  intro ds
  induction ds with
  | nil => intro _ w; rfl
  | cons c ds ih =>
    intro hds w
    have hc := hds c (List.mem_cons_self _ _)
    have h1 : List.isPrefixOf semKey (c :: (ds ++ w)) = false := by
      have hsk : semKey = 'S' :: "emester:".data := rfl
      rw [hsk]
      simp [List.isPrefixOf, isDigit_ne_S c hc]
    simp only [noOccWithin, h1, Bool.not_false, Bool.true_and]
    exact ih (fun c' hc' => hds c' (List.mem_cons_of_mem _ hc')) w

theorem decode_encode_core (t b : List Char)
    (hno1 : noOccWithin semKey (' ' :: (t ++ " | Branch: ".data)) b = true)
    (hno2 : ∀ v, noOccWithin ['|'] (' ' :: (t ++ [' '])) v = true)
    (hstrip : pyStrip (' ' :: (t ++ [' '])) = t) :
    decode_semester (encodeDescription t b) = t := by
  have hE : encodeDescription t b =
      semKey ++ ((' ' :: (t ++ " | Branch: ".data)) ++ b) := by
    have h0 : "Semester: ".data = semKey ++ [' '] := rfl
    simp [encodeDescription, h0, List.append_assoc, semKey]
  have h9 : semKey.length = 9 := rfl
  have hcont : containsSeq semKey (encodeDescription t b) = true := by
    rw [hE]; exact containsSeq_of_prefix _ _ (isPrefixOf_append_self _ _)
  have hlen1 : (encodeDescription t b).length =
      (8 + ((' ' :: (t ++ " | Branch: ".data)) ++ b).length) + 1 := by
    rw [hE]; simp only [List.length_append, h9]; omega
  have hsplit1 : pySplit semKey (encodeDescription t b) =
      [] :: pySplitF semKey (8 + ((' ' :: (t ++ " | Branch: ".data)) ++ b).length)
        ((' ' :: (t ++ " | Branch: ".data)) ++ b) := by
    unfold pySplit
    rw [hlen1, hE]
    exact pySplitF_prefix_step semKey _ (by decide) _
  have harith : 8 + ((' ' :: (t ++ " | Branch: ".data)) ++ b).length =
      (' ' :: (t ++ " | Branch: ".data)).length + (8 + b.length) := by
    simp only [List.length_append]; omega
  have hsplit2 : pySplitF semKey
      (8 + ((' ' :: (t ++ " | Branch: ".data)) ++ b).length)
      ((' ' :: (t ++ " | Branch: ".data)) ++ b) =
      ((' ' :: (t ++ " | Branch: ".data)) ++
        (pySplitF semKey (8 + b.length) b).headD []) ::
        (pySplitF semKey (8 + b.length) b).tail := by
    rw [harith]
    exact pySplitF_no_occ semKey _ (8 + b.length) b hno1
  unfold decode_semester
  rw [if_pos hcont, hsplit1, hsplit2]
  show (if containsSeq ['|'] ((' ' :: (t ++ " | Branch: ".data)) ++
        (pySplitF semKey (8 + b.length) b).headD []) = true then
      pyStrip ((pySplit ['|'] ((' ' :: (t ++ " | Branch: ".data)) ++
        (pySplitF semKey (8 + b.length) b).headD [])).headD [])
    else pyStrip ((' ' :: (t ++ " | Branch: ".data)) ++
        (pySplitF semKey (8 + b.length) b).headD [])) = t
  have hpipe : containsSeq ['|'] ((' ' :: (t ++ " | Branch: ".data)) ++
      (pySplitF semKey (8 + b.length) b).headD []) = true := by
    rw [containsSeq_singleton_iff]
    refine List.mem_append.mpr (Or.inl ?_)
    refine List.mem_cons.mpr (Or.inr ?_)
    exact List.mem_append.mpr (Or.inr (by decide))
  rw [if_pos hpipe]
  have hu2 : (' ' :: (t ++ " | Branch: ".data)) ++
      (pySplitF semKey (8 + b.length) b).headD [] =
      (' ' :: (t ++ [' '])) ++
        ('|' :: (" Branch: ".data ++ (pySplitF semKey (8 + b.length) b).headD [])) := by
    have hpiece : " | Branch: ".data = [' ', '|'] ++ " Branch: ".data := rfl
    simp [hpiece, List.append_assoc]
  have hhead : (pySplit ['|'] ((' ' :: (t ++ " | Branch: ".data)) ++
      (pySplitF semKey (8 + b.length) b).headD [])).headD [] =
      ' ' :: (t ++ [' ']) := by
    unfold pySplit
    rw [hu2]
    have hl : ((' ' :: (t ++ [' '])) ++
        ('|' :: (" Branch: ".data ++ (pySplitF semKey (8 + b.length) b).headD []))).length =
        (' ' :: (t ++ [' '])).length +
        ('|' :: (" Branch: ".data ++ (pySplitF semKey (8 + b.length) b).headD [])).length :=
      List.length_append _ _
    rw [hl, pySplitF_no_occ ['|'] _ _ _ (hno2 _)]
    have hw : pySplitF ['|']
        ('|' :: (" Branch: ".data ++ (pySplitF semKey (8 + b.length) b).headD [])).length
        ('|' :: (" Branch: ".data ++ (pySplitF semKey (8 + b.length) b).headD [])) =
        [] :: pySplitF ['|']
          (" Branch: ".data ++ (pySplitF semKey (8 + b.length) b).headD []).length
          (" Branch: ".data ++ (pySplitF semKey (8 + b.length) b).headD []) := by
      rw [List.length_cons]
      exact pySplitF_pipe_cons _
    rw [hw]
    simp
  rw [hhead]
  exact hstrip

/-- C7: encoding a canonical audience tag (matching `Sem <digits>` or
equal to `All`) into the wire-format description and decoding it back
yields the original tag, for every branch value; and a description with
no `Semester:` segment decodes to the default `All` instead of erroring. -/
theorem tag_roundtrip_and_default :
    (∀ (t b : List Char),
      (t = "All".data ∨ ∃ ds, ds ≠ [] ∧ (∀ c ∈ ds, c.isDigit = true) ∧
        t = "Sem ".data ++ ds) →
      decode_semester (encodeDescription t b) = t)
    ∧ (∀ d : List Char, containsSeq semKey d = false →
        decode_semester d = "All".data) := by
  constructor
  · rintro t b (rfl | ⟨ds, hne, hds, rfl⟩)
    · apply decode_encode_core
      · have hfold : ' ' :: ("All".data ++ " | Branch: ".data) =
            " All | Branch: ".data := rfl
        rw [hfold]
        exact noOcc_semKey_all_front b
      · intro v
        rw [noOccWithin_singleton]
        decide
      · decide
    · apply decode_encode_core
      · have heq : ' ' :: (("Sem ".data ++ ds) ++ " | Branch: ".data) =
            [' ', 'S', 'e', 'm', ' '] ++ (ds ++ " | Branch: ".data) := by
          simp
        rw [heq, noOccWithin_append, noOccWithin_append]
        simp [noOcc_semKey_sem_front, noOcc_semKey_digits ds hds]
        exact noOcc_semKey_branch_tail b
      · intro v
        rw [noOccWithin_singleton, List.all_eq_true]
        intro c hc
        simp only [List.mem_cons, List.mem_append, List.mem_singleton,
          List.not_mem_nil, or_false] at hc
        rcases hc with rfl | (hc | hc) | rfl
        · decide
        · rcases hc with rfl | rfl | rfl | rfl <;> decide
        · simp [isDigit_ne_pipe c (hds c hc)]
        · decide
      · cases hrev : ds.reverse with
        | nil => exact absurd (List.reverse_eq_nil_iff.mp hrev) hne
        | cons dl rest =>
          have hdl : dl ∈ ds := by
            have hmem : dl ∈ ds.reverse := by
              rw [hrev]; exact List.mem_cons_self _ _
            exact List.mem_reverse.mp hmem
          have hrev2 : ("Sem ".data ++ ds).reverse =
              dl :: (rest ++ "Sem ".data.reverse) := by
            simp [List.reverse_append, hrev]
          exact pyStrip_pad _ 'S' dl ("em ".data ++ ds)
            (rest ++ "Sem ".data.reverse) rfl (by decide) hrev2
            (isDigit_not_space dl (hds dl hdl))
  · intro d h
    simp [decode_semester, h]

theorem tag_roundtrip_and_default_witness :
    decode_semester (encodeDescription ("Sem 3".data) ("CSE".data)) =
      "Sem 3".data :=
  tag_roundtrip_and_default.1 ("Sem 3".data) ("CSE".data)
    (Or.inr ⟨['3'], by decide, by decide, rfl⟩)
